import Mathlib

set_option maxRecDepth 100000

/-!
Verification of the message classification, thread-reconstruction and
incremental-merge engine of `export.py` (matrix-publisher-bot).

The Python source is shallowly embedded: dictionaries with optional keys
become structures of `Option` fields, Python truthiness of strings/ids is
modelled explicitly, the regular expressions of `export.py` are implemented
as character-list scanners with the exact leftmost / non-overlapping /
greedy semantics of the patterns used there, and the fixed-point keep-set
loop is modelled with a fuel bound (batch length + 1) that is proved
sufficient.  Whitespace classes (`\s`, `str.strip`) are modelled over the
ASCII whitespace characters, and `\w` / `str.lower` over ASCII letters and
digits, which is the fragment the repository's data exercises.
-/

/-! ### Character classes (Python `\s`, `\w`, markdown stripping) -/

/-- ASCII whitespace, the characters Python's `\s` / `str.strip` handle in
the ASCII range: space, tab, newline, carriage return, vertical tab, form feed. -/
def isPySpace (c : Char) : Bool :=
  c = ' ' || c = '\t' || c = '\n' || c = '\r' || c = Char.ofNat 11 || c = Char.ofNat 12

/-- The character class `[\s#\-*]` of `re.sub(r"^[\s#\-*]+", "", body)` in
`is_category_post` / `get_message_type`. -/
def isMdStripChar (c : Char) : Bool :=
  isPySpace c || c = '#' || c = '-' || c = '*'

/-- Python `\w` (ASCII fragment): letters, digits, underscore. -/
def isWordChar (c : Char) : Bool :=
  c.isAlphanum || c = '_'

/-- `str.lstrip()` on a character list. -/
def pyLstrip (l : List Char) : List Char := l.dropWhile isPySpace

/-- `str.strip()` on a character list. -/
def pyStrip (l : List Char) : List Char :=
  ((l.dropWhile isPySpace).reverse.dropWhile isPySpace).reverse

/-- `str.lstrip()` on a string. -/
def pyLstripS (s : String) : String := String.mk (pyLstrip s.data)

/-- Match a literal pattern (given in lowercase) case-insensitively at the
head of the input; return the rest of the input after the match. -/
def matchCI : List Char → List Char → Option (List Char)
  | [], l => some l
  | _ :: _, [] => none
  | p :: ps, c :: cs => if c.toLower = p then matchCI ps cs else none

/-- Match a literal pattern exactly at the head of the input; return the rest. -/
def stripExact : List Char → List Char → Option (List Char)
  | [], l => some l
  | _ :: _, [] => none
  | p :: ps, c :: cs => if c = p then stripExact ps cs else none

/-- Python `str.split(",")`. -/
def splitComma (l : List Char) : List (List Char) :=
  l.foldr (fun c acc =>
    match acc with
    | h :: t => if c = ',' then [] :: h :: t else (c :: h) :: t
    | [] => [[c]]) [[]]

/-- First-occurrence-preserving deduplication, the behaviour of Python's
`list(dict.fromkeys(xs))`; `seen` accumulates the values already kept. -/
def dedupFirstGo {α : Type} [DecidableEq α] : List α → List α → List α
  | _, [] => []
  | seen, a :: l =>
    if a ∈ seen then dedupFirstGo seen l else a :: dedupFirstGo (a :: seen) l

/-- `list(dict.fromkeys(xs))`. -/
def dedupFirst {α : Type} [DecidableEq α] (l : List α) : List α := dedupFirstGo [] l

/-! ### The regular-expression scanners of `extract_keywords`

`re.search(r"keywords?\s*:\s*([^\n#]+)", body, re.I)`,
`re.findall(r"#(\w[\w\-]*)", body)` and
`re.finditer(r"\*\*([^*]+)\*\*", body)`.  Each scanner walks the input one
position at a time (leftmost match, non-overlapping continuation), with a
fuel argument equal to the input length; every step consumes at least one
character, so the fuel is never exhausted before the input is. -/

/-- The letters of `keywords?` up to the optional `s`. -/
def kwLabel : List Char := ['k', 'e', 'y', 'w', 'o', 'r', 'd']

/-- Try `keywords?\s*:\s*([^\n#]+)` anchored at the head of `l`; return the
capture group.  Normally this is the greedy non-empty run of characters other
than `\n`/`#` after the colon's whitespace.  When that run is empty (the next
character is `\n`, `#`, or the end), the greedy second `\s*` backtracks: the
capture becomes the last whitespace character of the run that is not a
newline (a single character, since everything after it up to the blocker is
newlines), and only if the run holds no such character does the match fail. -/
def tryKeywordsAt (l : List Char) : Option (List Char) :=
  match matchCI kwLabel l with
  | none => none
  | some r =>
    let r1 := match r with
      | c :: cs => if c.toLower = 's' then cs else c :: cs
      | [] => []
    match r1.dropWhile isPySpace with
    | ':' :: r2 =>
      let ws := r2.takeWhile isPySpace
      let cap := (r2.drop ws.length).takeWhile (fun c => !(c = '\n' || c = '#'))
      if cap ≠ [] then some cap
      else
        match ws.reverse.dropWhile (fun c => c = '\n') with
        | c :: _ => some [c]
        | [] => none
    | _ => none

/-- Leftmost search for the `keywords?` pattern (`re.search`). -/
def findKWGo : Nat → List Char → Option (List Char)
  | 0, _ => none
  | _ + 1, [] => none
  | fuel + 1, c :: cs =>
    match tryKeywordsAt (c :: cs) with
    | some cap => some cap
    | none => findKWGo fuel cs

/-- All captures of `#(\w[\w\-]*)` in order (`re.findall`). -/
def findHashtagsGo : Nat → List Char → List (List Char)
  | 0, _ => []
  | _ + 1, [] => []
  | fuel + 1, c :: cs =>
    if c = '#' then
      match cs with
      | d :: ds =>
        if isWordChar d then
          let tag := d :: ds.takeWhile (fun x => isWordChar x || x = '-')
          tag :: findHashtagsGo fuel (ds.drop (tag.length - 1))
        else findHashtagsGo fuel cs
      | [] => []
    else findHashtagsGo fuel cs

/-- All captures of `\*\*([^*]+)\*\*` in order (`re.finditer`). -/
def boldMatchesGo : Nat → List Char → List (List Char)
  | 0, _ => []
  | _ + 1, [] => []
  | fuel + 1, c :: cs =>
    if c = '*' then
      match cs with
      | d :: ds =>
        if d = '*' then
          let cap := ds.takeWhile (fun x => !(x = '*'))
          match ds.drop cap.length with
          | '*' :: '*' :: rest =>
            if cap = [] then boldMatchesGo fuel cs
            else cap :: boldMatchesGo fuel rest
          | _ => boldMatchesGo fuel cs
        else boldMatchesGo fuel cs
      | [] => []
    else boldMatchesGo fuel cs

/-- Python `str.split()` (words separated by whitespace runs). -/
def splitWsGo : Nat → List Char → List (List Char)
  | 0, _ => []
  | _ + 1, [] => []
  | fuel + 1, c :: cs =>
    if isPySpace c then splitWsGo fuel cs
    else
      let w := c :: cs.takeWhile (fun x => !(isPySpace x))
      w :: splitWsGo fuel (cs.drop (w.length - 1))

/-- `extract_keywords(body)` of `export.py`: the explicit `keywords:` line
(comma-separated, stripped, lowercased), then hashtags in document order,
then 2–4-word `**bold**` phrases not already present case-insensitively;
finally first-occurrence deduplication capped at 15 entries. -/
def extract_keywords (body : String) : List String :=
  let l := body.data
  let explicit : List (List Char) :=
    match findKWGo l.length l with
    | some cap =>
      (splitComma cap).filterMap (fun w =>
        if pyStrip w = [] then none else some ((pyStrip w).map Char.toLower))
    | none => []
  let tags := findHashtagsGo l.length l
  let bolds := boldMatchesGo l.length l
  let withBold := bolds.foldl (fun kws cap =>
    let phrase := pyStrip cap
    let n := (splitWsGo phrase.length phrase).length
    if 2 ≤ n ∧ n ≤ 4 ∧ (phrase.map Char.toLower) ∉ kws.map (fun k => k.map Char.toLower)
    then kws ++ [phrase] else kws) (explicit ++ tags)
  ((dedupFirst withBold).take 15).map (fun cl => String.mk cl)

/-! ### Data model

Raw Matrix events and the minimal output schema.  Dictionary fields that may
be missing are `Option`; Python's `x or default` on them is `Option.getD`
(for strings the falsy values `None` and `""` both produce the default, and
`getD ""` agrees because `some "" → ""`).  An `m.in_reply_to` value models a
dict with an optional `event_id`; a missing, `None`, non-dict or empty-dict
(falsy) value is `none`. -/

structure InReplyTo where
  event_id : Option String
  deriving DecidableEq, Repr

structure RelatesTo where
  rel_type : Option String
  event_id : Option String
  in_reply_to : Option InReplyTo
  deriving DecidableEq, Repr

structure NewContent where
  body : Option String
  formatted_body : Option String
  deriving DecidableEq, Repr

structure Content where
  body : Option String
  formatted_body : Option String
  relates_to : Option RelatesTo
  in_reply_to : Option InReplyTo
  new_content : Option NewContent
  deriving DecidableEq, Repr

structure RawMessage where
  type : Option String
  event_id : Option String
  origin_server_ts : Option Int
  content : Option Content
  deriving DecidableEq, Repr

/-- The empty dict `{}` used as default for a missing `content`. -/
def emptyContent : Content :=
  { body := none, formatted_body := none, relates_to := none,
    in_reply_to := none, new_content := none }

/-- The empty dict `{}` used as default for a missing `m.relates_to`. -/
def emptyRelatesTo : RelatesTo :=
  { rel_type := none, event_id := none, in_reply_to := none }

/-- `msg.get("origin_server_ts", 0)`. -/
def tsOf (m : RawMessage) : Int := m.origin_server_ts.getD 0

/-- Python truthiness of an optional event-id string. -/
def truthyId : Option String → Bool
  | some s => s ≠ ""
  | none => false

/-- `get_message_content(msg)`: `(body, formatted_body)`, both defaulted to `""`. -/
def get_message_content (msg : RawMessage) : String × String :=
  let c := msg.content.getD emptyContent
  (c.body.getD "", c.formatted_body.getD "")

/-- The output unit built by `to_minimal_message`.  `parent_id` is a key the
emitted dict always carries (its value may be `None`); `formatted_body` and
`keywords` are `none` exactly when their key is absent from the dict. -/
structure MinimalMessage where
  id : Option String
  ts : Int
  type : String
  body : String
  parent_id : Option String
  formatted_body : Option String
  keywords : Option (List String)
  deriving DecidableEq, Repr

/-- The JSON keys present on an emitted record: the five unconditional keys of
the `out` dict literal in `to_minimal_message`, plus the conditional ones. -/
def recordKeys (m : MinimalMessage) : List String :=
  ["id", "ts", "type", "body", "parent_id"]
    ++ (if m.formatted_body.isSome then ["formatted_body"] else [])
    ++ (if m.keywords.isSome then ["keywords"] else [])

/-- The persisted export document. `processed_ids` is a set of event ids
(Python materializes it as a lexicographically sorted list; the set is the
information content). -/
structure ExportState where
  messages : List MinimalMessage
  processed_ids : Finset (Option String)
  last_processed_ts : Int
  deriving DecidableEq

/-! ### Emoji table and classification -/

/-- `EMOJI_TO_TYPE` of `export.py`, in source order. -/
def EMOJI_TO_TYPE : List (Char × String) :=
  [('📥', "journal"), ('🔗', "link"), ('❓', "question"), ('💾', "project"),
   ('💡', "idea"), ('📔', "field_note"), ('📄', "blog_post")]

/-- `CATEGORY_EMOJIS = list(EMOJI_TO_TYPE.keys())`. -/
def CATEGORY_EMOJIS : List Char := EMOJI_TO_TYPE.map (·.1)

/-- `body_normalized.startswith(emoji)` for a single-character glyph. -/
def startsWithGlyph (l : List Char) (e : Char) : Bool :=
  match l with
  | c :: _ => c = e
  | [] => false

/-- `body_normalized.startswith(emoji + "\uFE0F")`. -/
def startsWithGlyphVar (l : List Char) (e : Char) : Bool :=
  match l with
  | c :: d :: _ => c = e && d = '\uFE0F'
  | _ => false

/-- `body.lstrip()` followed by `re.sub(r"^[\s#\-*]+", "", body)`: the
normalized prefix both `is_category_post` and `get_message_type` compute. -/
def normalizedBody (msg : RawMessage) : List Char :=
  (pyLstrip (get_message_content msg).1.data).dropWhile isMdStripChar

/-! ### `is_link_only` and its regex scanners -/

/-- `https?://` at the head of `l`; returns the rest after the scheme.  The
optional `s` never needs backtracking: if the character after `http` is `s`
the schemeless alternative would have to match `:` against `s`. -/
def afterScheme (l : List Char) : Option (List Char) :=
  match stripExact ['h', 't', 't', 'p'] l with
  | none => none
  | some r =>
    match r with
    | 's' :: r2 => stripExact [':', '/', '/'] r2
    | _ => stripExact [':', '/', '/'] r

/-- One leftmost/non-overlapping `re.sub` style pass: `try` matches a pattern
anchored at the current position and yields the replacement text and the
strictly shorter remainder; on failure the scan advances one character.  Fuel
equals the input length, which every step consumes at least one unit of. -/
def subGo (tryM : List Char → Option (List Char × List Char)) :
    Nat → List Char → List Char
  | _, [] => []
  | 0, l => l
  | fuel + 1, c :: cs =>
    match tryM (c :: cs) with
    | some (rep, rest) => rep ++ subGo tryM fuel rest
    | none => c :: subGo tryM fuel cs

/-- `re.sub` over the whole input. -/
def reSub (tryM : List Char → Option (List Char × List Char)) (l : List Char) :
    List Char :=
  subGo tryM l.length l

/-- Matcher for `_\s*originally posted[^_]*_` (case-insensitive), removed. -/
def tryOPUnd : List Char → Option (List Char × List Char)
  | '_' :: r =>
    match matchCI ['o', 'r', 'i', 'g', 'i', 'n', 'a', 'l', 'l', 'y', ' ',
                   'p', 'o', 's', 't', 'e', 'd'] (r.dropWhile isPySpace) with
    | none => none
    | some r2 =>
      match r2.dropWhile (fun c => !(c = '_')) with
      | '_' :: rest => some ([], rest)
      | _ => none
  | _ => none

/-- Matcher for `originally posted[^\n]*` (case-insensitive), removed. -/
def tryOPLine (l : List Char) : Option (List Char × List Char) :=
  match matchCI ['o', 'r', 'i', 'g', 'i', 'n', 'a', 'l', 'l', 'y', ' ',
                 'p', 'o', 's', 't', 'e', 'd'] l with
  | none => none
  | some r => some ([], r.dropWhile (fun c => !(c = '\n')))

/-- `str.replace(needle, "")` for a non-empty needle. -/
def removeAll (needle : List Char) (l : List Char) : List Char :=
  reSub (fun l' => match stripExact needle l' with
    | some rest => some ([], rest)
    | none => none) l

/-- Full match of `^\s*\[([^\]]*)\]\(https?://[^\)]+\)\s*$`. -/
def mdLinkOnly (l : List Char) : Bool :=
  match (l.dropWhile isPySpace) with
  | '[' :: r =>
    match (r.dropWhile (fun c => !(c = ']'))) with
    | ']' :: '(' :: r2 =>
      match afterScheme r2 with
      | some r3 =>
        let u := r3.takeWhile (fun c => !(c = ')'))
        if u = [] then false
        else match r3.drop u.length with
          | ')' :: r4 => r4.dropWhile isPySpace = []
          | _ => false
      | none => false
    | _ => false
  | _ => false

/-- Full match of `^\s*https?://\S+\s*$`. -/
def bareUrlOnly (l : List Char) : Bool :=
  match afterScheme (l.dropWhile isPySpace) with
  | some r =>
    let tok := r.takeWhile (fun c => !(isPySpace c))
    if tok = [] then false else (r.drop tok.length).dropWhile isPySpace = []
  | none => false

/-- Matcher for `https?://[^\s\)\]]+`, removed. -/
def tryUrl (l : List Char) : Option (List Char × List Char) :=
  match afterScheme l with
  | some r =>
    let tok := r.takeWhile (fun c => !(isPySpace c || c = ')' || c = ']'))
    if tok = [] then none else some ([], r.drop tok.length)
  | none => none

/-- Matcher for `\[([^\]]+)\]\([^\)]+\)`, replaced by the link text. -/
def tryMdLink : List Char → Option (List Char × List Char)
  | '[' :: r =>
    let a := r.takeWhile (fun c => !(c = ']'))
    if a = [] then none
    else match r.drop a.length with
      | ']' :: '(' :: r2 =>
        let u := r2.takeWhile (fun c => !(c = ')'))
        if u = [] then none
        else match r2.drop u.length with
          | ')' :: rest => some (a, rest)
          | _ => none
      | _ => none
  | _ => none

/-- Matcher for `\s+`, replaced by a single space. -/
def tryWsRun (l : List Char) : Option (List Char × List Char) :=
  match l with
  | c :: _ =>
    if isPySpace c then
      let run := l.takeWhile isPySpace
      some ([' '], l.drop run.length)
    else none
  | [] => none

/-- `is_link_only(body)` of `export.py`: strip the "originally posted"
annotations and all marker glyphs; then the post is link-only if it is a
single markdown link, a single bare URL, or has fewer than 100 characters
left once URLs are removed, `[text](url)` collapsed to `text`, and
whitespace runs collapsed. -/
def is_link_only (body : String) : Bool :=
  let l1 := reSub tryOPUnd body.data
  let l2 := reSub tryOPLine l1
  let l3 := CATEGORY_EMOJIS.foldl
    (fun l e => removeAll [e] (removeAll [e, '\uFE0F'] l)) l2
  let l4 := pyStrip l3
  if mdLinkOnly l4 then true
  else if bareUrlOnly l4 then true
  else
    let w1 := reSub tryUrl l4
    let w2 := reSub tryMdLink w1
    let w3 := pyStrip (reSub tryWsRun w2)
    decide (w3.length < 100)

/-! ### Classification, relations, edit map, record builder -/

/-- `is_category_post(msg)`: a root post in one of the publishable
categories — a room message, not an `m.replace` or `m.thread` relation,
whose normalized body starts with one of the seven glyphs. -/
def is_category_post (msg : RawMessage) : Bool :=
  if msg.type ≠ some "m.room.message" then false
  else
    let content := msg.content.getD emptyContent
    let relates := content.relates_to.getD emptyRelatesTo
    if relates.rel_type = some "m.replace" then false
    else if relates.rel_type = some "m.thread" then false
    else CATEGORY_EMOJIS.any (fun e => startsWithGlyph (normalizedBody msg) e)

/-- `get_message_type(msg, is_reply)`. -/
def get_message_type (msg : RawMessage) (is_reply : Bool) : String :=
  if is_reply then "reply"
  else
    let body := pyLstripS (get_message_content msg).1
    match EMOJI_TO_TYPE.find? (fun p =>
        startsWithGlyph (normalizedBody msg) p.1
          || startsWithGlyphVar (normalizedBody msg) p.1) with
    | some p => if p.2 = "journal" ∧ is_link_only body = true then "link" else p.2
    | none => "field_note"

/-- `get_parent_id(msg)`: thread parent, else the (truthy) `m.in_reply_to`
event id found under the relation block or, legacy, directly under content. -/
def get_parent_id (msg : RawMessage) : Option String :=
  let content := msg.content.getD emptyContent
  let relates := content.relates_to.getD emptyRelatesTo
  if relates.rel_type = some "m.thread" then relates.event_id
  else
    match relates.in_reply_to.orElse (fun _ => content.in_reply_to) with
    | some irt =>
      match irt.event_id with
      | some e => if e = "" then none else some e
      | none => none
    | none => none

/-- The replace-relation data `build_edit_map` reads off one message: the
(truthy) target id and the replacement `(body, formatted_body)`, taken from
`m.new_content` when present (and truthy) else from the top-level content. -/
def editTarget (msg : RawMessage) : Option (String × String × String) :=
  if msg.type ≠ some "m.room.message" then none
  else
    let content := msg.content.getD emptyContent
    let relates := content.relates_to.getD emptyRelatesTo
    if relates.rel_type ≠ some "m.replace" then none
    else
      match relates.event_id with
      | some oid =>
        if oid = "" then none
        else
          match content.new_content with
          | some nc => some (oid, nc.body.getD "", nc.formatted_body.getD "")
          | none => some (oid, content.body.getD "", content.formatted_body.getD "")
      | none => none

/-- One step of `build_edit_map`: a replace event overwrites its target's
entry (dict assignment), anything else leaves the map unchanged. -/
def editStep (em : String → Option (String × String)) (m : RawMessage) :
    String → Option (String × String) :=
  match editTarget m with
  | some (oid, b, fb) => fun k => if k = oid then some (b, fb) else em k
  | none => em

/-- `build_edit_map(messages)`: `original_id -> (body, formatted_body)`,
the last replace event for each target winning. -/
def build_edit_map (messages : List RawMessage) : String → Option (String × String) :=
  messages.foldl editStep (fun _ => none)

/-- `to_minimal_message(msg, is_reply, edit_map)`. -/
def to_minimal_message (msg : RawMessage) (is_reply : Bool)
    (edit_map : String → Option (String × String)) : MinimalMessage :=
  let body0 := (get_message_content msg).1
  let fb0 := (get_message_content msg).2
  let over : String × String :=
    match msg.event_id with
    | some e =>
      match edit_map e with
      | some bf => bf
      | none => (body0, fb0)
    | none => (body0, fb0)
  { id := msg.event_id
    ts := tsOf msg
    type := get_message_type msg is_reply
    body := over.1
    parent_id := if is_reply then get_parent_id msg else none
    formatted_body := if over.2 ≠ "" then some over.2 else none
    keywords :=
      if is_reply then none
      else if extract_keywords over.1 ≠ [] then some (extract_keywords over.1)
      else none }

/-! ### Stable sorting by timestamp

Python's `list.sort(key=...)` is a stable ascending sort; an insertion sort
that places each earlier element before later elements of equal key realizes
the same order. -/

/-- Stable insertion of `x` into a sorted list: before the first element of
key not smaller than `x`'s (so before equal-key elements that came later in
the original list when used with `foldr`). -/
def insBy {α : Type} (key : α → Int) (x : α) : List α → List α
  | [] => [x]
  | y :: ys => if key x ≤ key y then x :: y :: ys else y :: insBy key x ys

/-- Stable ascending sort by an integer key (Python `sort(key=...)`). -/
def sortBy {α : Type} (key : α → Int) (l : List α) : List α :=
  l.foldr (insBy key) []

/-! ### The keep-set computation of `process_messages` (lines 205–232)

Sets of (optional) event ids; the code inserts `msg.get("event_id")`
unchecked in the closure loop, so `none` can be a member. -/

/-- One step of the `category_root_ids` accumulation (lines 206–210):
insert the event id of a category post when the id is truthy (the guard
chain `if is_category_post(msg)` / `if eid:` as one conjunction). -/
def criStep (s : Finset (Option String)) (m : RawMessage) : Finset (Option String) :=
  if is_category_post m = true ∧ truthyId m.event_id = true
  then insert m.event_id s else s

/-- `category_root_ids`: existing roots plus this run's category posts. -/
def categoryRootIds (new_only : List RawMessage) (er : Finset (Option String)) :
    Finset (Option String) :=
  new_only.foldl criStep er

/-- One step of the seeding pass (lines 213–218): membership of the (truthy)
parent is tested against the fixed `category_root_ids`; the `continue`
guards appear as one conjunction. -/
def firstStep (cri : Finset (Option String)) (s : Finset (Option String))
    (m : RawMessage) : Finset (Option String) :=
  if m.type = some "m.room.message" ∧ truthyId (get_parent_id m) = true ∧
      get_parent_id m ∈ cri
  then insert m.event_id s else s

/-- `keep_ids` after the seeding pass (lines 212–218). -/
def keepSeed (new_only : List RawMessage) (cri : Finset (Option String)) :
    Finset (Option String) :=
  new_only.foldl (firstStep cri) cri

/-- One step of the closure pass (lines 223–232): skip non-messages and
already-kept ids; add a message whose truthy parent is already kept (the
`continue` guards as one conjunction). -/
def passStep (s : Finset (Option String)) (m : RawMessage) : Finset (Option String) :=
  if m.type = some "m.room.message" ∧ m.event_id ∉ s ∧
      truthyId (get_parent_id m) = true ∧ get_parent_id m ∈ s
  then insert m.event_id s else s

/-- One full pass of the `while changed` loop (lines 221–232). -/
def keepPass (new_only : List RawMessage) (s : Finset (Option String)) :
    Finset (Option String) :=
  new_only.foldl passStep s

/-- The `while changed` loop with fuel: stop when a pass adds nothing. -/
def keepLoop (new_only : List RawMessage) : Nat → Finset (Option String) →
    Finset (Option String)
  | 0, s => s
  | fuel + 1, s =>
    let s' := keepPass new_only s
    if s' = s then s else keepLoop new_only fuel s'

/-- The full keep-set of lines 212–232; `new_only.length + 1` passes are
proved sufficient for the loop to reach its fixed point. -/
def keepIds (new_only : List RawMessage) (cri : Finset (Option String)) :
    Finset (Option String) :=
  keepLoop new_only (new_only.length + 1) (keepSeed new_only cri)

/-! ### `process_messages` (lines 186–263), decomposed into its locals -/

/-- `already_processed`. -/
def alreadyOf : Option ExportState → Finset (Option String)
  | some e => e.processed_ids
  | none => ∅

/-- `existing_messages`. -/
def exMsgsOf : Option ExportState → List MinimalMessage
  | some e => e.messages
  | none => []

/-- `existing_last_ts` (`existing_export.get("last_processed_ts") or 0`;
for an integer field `0 or 0 = 0`, so the value is the field itself). -/
def exLastOf : Option ExportState → Int
  | some e => e.last_processed_ts
  | none => 0

/-- `new_only`: the batch filtered to ids not yet processed. -/
def newOnly (messages : List RawMessage) : Option ExportState → List RawMessage
  | some e => messages.filter (fun m => decide (m.event_id ∉ e.processed_ids))
  | none => messages

/-- `existing_root_ids = {m["id"] for m in existing_messages if not m.get("parent_id")}`. -/
def existingRootIds (ms : List MinimalMessage) : Finset (Option String) :=
  ((ms.filter (fun m => !(truthyId m.parent_id))).map (fun m => m.id)).toFinset

/-- `existing_root_ids` from the optional prior state. -/
def erOf : Option ExportState → Finset (Option String)
  | some e => existingRootIds e.messages
  | none => ∅

/-- The run's `category_root_ids`. -/
def criOf (messages : List RawMessage) (ex : Option ExportState) :
    Finset (Option String) :=
  categoryRootIds (newOnly messages ex) (erOf ex)

/-- The run's `keep_ids`. -/
def keepOf (messages : List RawMessage) (ex : Option ExportState) :
    Finset (Option String) :=
  keepIds (newOnly messages ex) (criOf messages ex)

/-- `kept`, sorted ascending by `origin_server_ts` (lines 234–235). -/
def keptOf (messages : List RawMessage) (ex : Option ExportState) :
    List RawMessage :=
  sortBy tsOf ((newOnly messages ex).filter (fun m => decide (m.event_id ∈ keepOf messages ex)))

/-- `minimal_new` (lines 239–243): `is_reply` is non-membership of the id in
`category_root_ids`; the edit map is built from the **entire batch**. -/
def minimalNewOf (messages : List RawMessage) (ex : Option ExportState) :
    List MinimalMessage :=
  (keptOf messages ex).map (fun m =>
    to_minimal_message m (decide (m.event_id ∉ criOf messages ex)) (build_edit_map messages))

/-- `last_processed_ts` (lines 254–257): the maximum of the kept messages'
timestamps and the prior value (the latter is always in the candidate list). -/
def lastTs (kept : List RawMessage) (exLast : Int) : Int :=
  kept.foldl (fun a m => max a (tsOf m)) exLast

/-- `process_messages(messages, existing_export)` (lines 186–263). -/
def process_messages (messages : List RawMessage) (ex : Option ExportState) :
    ExportState :=
  if exMsgsOf ex ≠ [] then
    { messages := sortBy (fun m => m.ts) (exMsgsOf ex ++ minimalNewOf messages ex)
      processed_ids := alreadyOf ex ∪ keepOf messages ex
      last_processed_ts := lastTs (keptOf messages ex) (exLastOf ex) }
  else
    { messages := minimalNewOf messages ex
      processed_ids := keepOf messages ex
      last_processed_ts := lastTs (keptOf messages ex) (exLastOf ex) }

/-- The (optional) event ids occurring in a batch. -/
def eidsOf (msgs : List RawMessage) : Finset (Option String) :=
  (msgs.map (fun m => m.event_id)).toFinset

/-- Transitive reachability from the seed root set through resolved, truthy
parent references of room messages of the batch, exactly the relation the
closure loop of `process_messages` computes. -/
inductive Reaches (seeds : Finset (Option String)) (msgs : List RawMessage) :
    Option String → Prop
  | seed {e : Option String} : e ∈ seeds → Reaches seeds msgs e
  | step {m : RawMessage} {p : String} : m ∈ msgs →
      m.type = some "m.room.message" → get_parent_id m = some p → p ≠ "" →
      Reaches seeds msgs (some p) → Reaches seeds msgs m.event_id

/-! ### Concrete events used as test vectors -/

/-- A category root: a 💡 idea post with id `A`. -/
def exRootIdea : RawMessage :=
  { type := some "m.room.message", event_id := some "A", origin_server_ts := some 5,
    content := some { body := some "💡 draft", formatted_body := none, relates_to := none,
                      in_reply_to := none, new_content := none } }

/-- An `m.replace` event with id `E1` targeting `A`, nested new content "final". -/
def exEdit : RawMessage :=
  { type := some "m.room.message", event_id := some "E1", origin_server_ts := some 6,
    content := some { body := some "* final", formatted_body := none,
                      relates_to := some { rel_type := some "m.replace",
                                           event_id := some "A", in_reply_to := none },
                      in_reply_to := none,
                      new_content := some { body := some "final", formatted_body := none } } }

/-- An `m.replace` event with id `E3` targeting `A` whose nested new content
has a non-empty `formatted_body`. -/
def exEditF : RawMessage :=
  { type := some "m.room.message", event_id := some "E3", origin_server_ts := some 6,
    content := some { body := some "* final", formatted_body := none,
                      relates_to := some { rel_type := some "m.replace",
                                           event_id := some "A", in_reply_to := none },
                      in_reply_to := none,
                      new_content := some { body := some "final",
                                            formatted_body := some "<b>final</b>" } } }

/-- An `m.replace` event with id `E2` targeting the previously persisted
message `O`. -/
def exEditO : RawMessage :=
  { type := some "m.room.message", event_id := some "E2", origin_server_ts := some 6,
    content := some { body := some "* new", formatted_body := none,
                      relates_to := some { rel_type := some "m.replace",
                                           event_id := some "O", in_reply_to := none },
                      in_reply_to := none,
                      new_content := some { body := some "new", formatted_body := none } } }

/-- A glyph-prefixed message that carries an `m.in_reply_to` reference (a
direct reply) but no `rel_type`. -/
def exGlyphReply : RawMessage :=
  { type := some "m.room.message", event_id := some "R1", origin_server_ts := some 7,
    content := some { body := some "💡 great point", formatted_body := none,
                      relates_to := some { rel_type := none, event_id := none,
                                           in_reply_to := some { event_id := some "X" } },
                      in_reply_to := none, new_content := none } }

/-- A previously persisted root record. -/
def exOldRec : MinimalMessage :=
  { id := some "O", ts := 0, type := "idea", body := "old", parent_id := none,
    formatted_body := none, keywords := none }

/-- A prior state whose `processed_ids` already contains the edit event `E1`. -/
def exPriorE : ExportState :=
  { messages := [exOldRec], processed_ids := {some "E1"}, last_processed_ts := 0 }

/-- A prior with no messages but with id `A` already in `processed_ids`. -/
def exBadPriorA : ExportState :=
  { messages := [], processed_ids := {some "A"}, last_processed_ts := 0 }

/-- A prior with no messages but with id `Z` already in `processed_ids`. -/
def exBadPriorZ : ExportState :=
  { messages := [], processed_ids := {some "Z"}, last_processed_ts := 0 }

/-- A 📥 post that is a bare URL. -/
def exLinkMsg : RawMessage :=
  { type := some "m.room.message", event_id := some "L", origin_server_ts := some 8,
    content := some { body := some "📥 https://example.com/article", formatted_body := none,
                      relates_to := none, in_reply_to := none, new_content := none } }

/-- Well over 100 characters of prose behind a 📥 marker. -/
def exJournalBody : String :=
  "📥 I found this paper interesting because it argues at great length " ++
    "that community governance of machine learning systems requires " ++
    "sustained public oversight and careful independent audits."

/-- A 📥 post with well over 100 characters of prose. -/
def exJournalMsg : RawMessage :=
  { type := some "m.room.message", event_id := some "J", origin_server_ts := some 9,
    content := some { body := some exJournalBody, formatted_body := none,
                      relates_to := none, in_reply_to := none, new_content := none } }

/-! ### Lemmas about the stable sort -/

theorem insBy_mem {α : Type} (key : α → Int) (x a : α) :
    ∀ l : List α, a ∈ insBy key x l ↔ a = x ∨ a ∈ l := by
  intro l
  induction l with
  | nil => simp [insBy]
  | cons y ys ih =>
    simp only [insBy]
    split
    · simp
    · simp only [List.mem_cons, ih]
      tauto

theorem insBy_pairwise {α : Type} (key : α → Int) (x : α) :
    ∀ l : List α, l.Pairwise (fun a b => key a ≤ key b) →
      (insBy key x l).Pairwise (fun a b => key a ≤ key b) := by
  intro l
  induction l with
  | nil => simp [insBy]
  | cons y ys ih =>
    intro h
    rw [List.pairwise_cons] at h
    simp only [insBy]
    split
    · rename_i hxy
      rw [List.pairwise_cons]
      constructor
      · intro b hb
        rcases List.mem_cons.mp hb with hb | hb
        · exact hb ▸ hxy
        · exact le_trans hxy (h.1 b hb)
      · exact List.pairwise_cons.mpr h
    · rename_i hxy
      rw [List.pairwise_cons]
      constructor
      · intro b hb
        rcases (insBy_mem key x b ys).mp hb with hb | hb
        · exact hb ▸ le_of_lt (lt_of_not_le hxy)
        · exact h.1 b hb
      · exact ih h.2

theorem sortBy_pairwise {α : Type} (key : α → Int) (l : List α) :
    (sortBy key l).Pairwise (fun a b => key a ≤ key b) := by
  induction l with
  | nil => simp [sortBy]
  | cons a t ih => exact insBy_pairwise key a _ ih

theorem sortBy_mem {α : Type} (key : α → Int) (a : α) (l : List α) :
    a ∈ sortBy key l ↔ a ∈ l := by
  induction l with
  | nil => simp [sortBy]
  | cons y ys ih =>
    show a ∈ insBy key y (sortBy key ys) ↔ _
    rw [insBy_mem, ih]
    simp

theorem sortBy_eq_self {α : Type} (key : α → Int) :
    ∀ l : List α, l.Pairwise (fun a b => key a ≤ key b) → sortBy key l = l := by
  intro l
  induction l with
  | nil => intro _; rfl
  | cons a t ih =>
    intro h
    rw [List.pairwise_cons] at h
    show insBy key a (sortBy key t) = a :: t
    rw [ih h.2]
    cases t with
    | nil => rfl
    | cons y ys =>
      have : key a ≤ key y := h.1 y (by simp)
      simp [insBy, this]

theorem sortBy_length {α : Type} (key : α → Int) :
    ∀ l : List α, (sortBy key l).length = l.length := by
  have hins : ∀ (x : α) (l : List α), (insBy key x l).length = l.length + 1 := by
    intro x l
    induction l with
    | nil => rfl
    | cons y ys ih =>
      simp only [insBy]
      split
      · simp
      · simp [ih]
  intro l
  induction l with
  | nil => rfl
  | cons a t ih =>
    show (insBy key a (sortBy key t)).length = _
    rw [hins, ih]
    rfl

/-! ### Generic lemmas about set-accumulating folds -/

theorem foldl_fs_subset {α β : Type} [DecidableEq α]
    {f : Finset α → β → Finset α} (hf : ∀ s m, s ⊆ f s m) :
    ∀ (l : List β) (s : Finset α), s ⊆ l.foldl f s := by
  intro l
  induction l with
  | nil => intro s; exact Finset.Subset.refl s
  | cons a t ih => intro s; exact Finset.Subset.trans (hf s a) (ih (f s a))

theorem foldl_fs_mem {α β : Type} [DecidableEq α]
    {f : Finset α → β → Finset α} (Q : β → α → Prop)
    (hf : ∀ s m e, e ∈ f s m → e ∈ s ∨ Q m e) :
    ∀ (l : List β) (s : Finset α) (e : α), e ∈ l.foldl f s →
      e ∈ s ∨ ∃ m ∈ l, Q m e := by
  intro l
  induction l with
  | nil => intro s e he; exact Or.inl he
  | cons a t ih =>
    intro s e he
    rcases ih (f s a) e he with h | ⟨m, hm, hQ⟩
    · rcases hf s a e h with h' | hQ
      · exact Or.inl h'
      · exact Or.inr ⟨a, by simp, hQ⟩
    · exact Or.inr ⟨m, by simp [hm], hQ⟩

theorem foldl_fs_const {α β : Type} [DecidableEq α]
    {f : Finset α → β → Finset α} :
    ∀ (l : List β) (s : Finset α), (∀ m ∈ l, f s m = s) → l.foldl f s = s := by
  intro l
  induction l with
  | nil => intro s _; rfl
  | cons a t ih =>
    intro s h
    have ha : f s a = s := h a (by simp)
    show List.foldl f (f s a) t = s
    rw [ha]
    exact ih s (fun m hm => h m (by simp [hm]))

theorem foldl_fs_inv {α β : Type} [DecidableEq α]
    {f : Finset α → β → Finset α} (P : Finset α → Prop) (L : List β)
    (hf : ∀ s m, m ∈ L → P s → P (f s m)) :
    ∀ l : List β, (∀ m ∈ l, m ∈ L) → ∀ s : Finset α, P s → P (l.foldl f s) := by
  intro l
  induction l with
  | nil => intro _ s hs; exact hs
  | cons a t ih =>
    intro hl s hs
    exact ih (fun m hm => hl m (by simp [hm])) (f s a) (hf s a (hl a (by simp)) hs)

/-! ### Properties of the keep-set steps -/

theorem truthyId_some {e : String} (h : e ≠ "") : truthyId (some e) = true := by
  simp [truthyId, h]

theorem truthyId_iff (o : Option String) :
    truthyId o = true ↔ ∃ e : String, o = some e ∧ e ≠ "" := by
  cases o with
  | none => simp [truthyId]
  | some e => simp [truthyId]

theorem criStep_subset (s : Finset (Option String)) (m : RawMessage) :
    s ⊆ criStep s m := by
  unfold criStep
  split
  · exact Finset.subset_insert _ s
  · exact Finset.Subset.refl s

theorem criStep_mem (s : Finset (Option String)) (m : RawMessage)
    (e : Option String) (he : e ∈ criStep s m) : e ∈ s ∨ e = m.event_id := by
  unfold criStep at he
  split at he
  · rcases Finset.mem_insert.mp he with h | h
    · exact Or.inr h
    · exact Or.inl h
  · exact Or.inl he

theorem criStep_trigger (s : Finset (Option String)) (m : RawMessage) (e : String)
    (hcat : is_category_post m = true) (hid : m.event_id = some e) (hne : e ≠ "") :
    some e ∈ criStep s m := by
  unfold criStep
  rw [if_pos ⟨hcat, by rw [hid]; exact truthyId_some hne⟩, ← hid]
  exact Finset.mem_insert_self _ s

theorem criStep_skip (s : Finset (Option String)) (m : RawMessage)
    (h : ¬(is_category_post m = true ∧ truthyId m.event_id = true)) :
    criStep s m = s := by
  unfold criStep
  rw [if_neg h]

theorem firstStep_subset (cri s : Finset (Option String)) (m : RawMessage) :
    s ⊆ firstStep cri s m := by
  unfold firstStep
  split
  · exact Finset.subset_insert _ s
  · exact Finset.Subset.refl s

theorem firstStep_mem (cri s : Finset (Option String)) (m : RawMessage)
    (e : Option String) (he : e ∈ firstStep cri s m) : e ∈ s ∨ e = m.event_id := by
  unfold firstStep at he
  split at he
  · rcases Finset.mem_insert.mp he with h | h
    · exact Or.inr h
    · exact Or.inl h
  · exact Or.inl he

theorem firstStep_skip (cri s : Finset (Option String)) (m : RawMessage)
    (h : ¬(m.type = some "m.room.message" ∧ truthyId (get_parent_id m) = true ∧
        get_parent_id m ∈ cri)) :
    firstStep cri s m = s := by
  unfold firstStep
  rw [if_neg h]

theorem passStep_subset (s : Finset (Option String)) (m : RawMessage) :
    s ⊆ passStep s m := by
  unfold passStep
  split
  · exact Finset.subset_insert _ s
  · exact Finset.Subset.refl s

theorem passStep_mem (s : Finset (Option String)) (m : RawMessage)
    (e : Option String) (he : e ∈ passStep s m) : e ∈ s ∨ e = m.event_id := by
  unfold passStep at he
  split at he
  · rcases Finset.mem_insert.mp he with h | h
    · exact Or.inr h
    · exact Or.inl h
  · exact Or.inl he

theorem passStep_eq_of_mem (s : Finset (Option String)) (m : RawMessage)
    (h : m.event_id ∈ s) : passStep s m = s := by
  unfold passStep
  rw [if_neg (fun hc => hc.2.1 h)]

theorem passStep_trigger (s : Finset (Option String)) (m : RawMessage)
    (htype : m.type = some "m.room.message") (p : String)
    (hp : get_parent_id m = some p) (hne : p ≠ "") (hmem : some p ∈ s) :
    m.event_id ∈ passStep s m := by
  unfold passStep
  by_cases h : m.event_id ∈ s
  · rw [if_neg (fun hc => hc.2.1 h)]
    exact h
  · rw [if_pos ⟨htype, h, by rw [hp]; exact truthyId_some hne, by rw [hp]; exact hmem⟩]
    exact Finset.mem_insert_self _ s

/-! ### The keep-set loop: extensivity, bound, fixed point, termination -/

theorem keepSeed_subset (msgs : List RawMessage) (cri : Finset (Option String)) :
    cri ⊆ keepSeed msgs cri :=
  foldl_fs_subset (firstStep_subset cri) msgs cri

theorem keepPass_subset (msgs : List RawMessage) (s : Finset (Option String)) :
    s ⊆ keepPass msgs s :=
  foldl_fs_subset passStep_subset msgs s

theorem keepLoop_subset (msgs : List RawMessage) :
    ∀ (fuel : Nat) (s : Finset (Option String)), s ⊆ keepLoop msgs fuel s := by
  intro fuel
  induction fuel with
  | zero => intro s; exact Finset.Subset.refl s
  | succ n ih =>
    intro s
    show s ⊆ (if keepPass msgs s = s then s else keepLoop msgs n (keepPass msgs s))
    split
    · exact Finset.Subset.refl s
    · exact Finset.Subset.trans (keepPass_subset msgs s) (ih (keepPass msgs s))

theorem keepPass_bound (msgs : List RawMessage) (s : Finset (Option String))
    (e : Option String) (he : e ∈ keepPass msgs s) :
    e ∈ s ∨ ∃ m ∈ msgs, e = m.event_id :=
  foldl_fs_mem (fun m e => e = m.event_id) (fun s m e => passStep_mem s m e) msgs s e he

theorem keepLoop_bound (msgs : List RawMessage) :
    ∀ (fuel : Nat) (s : Finset (Option String)) (e : Option String),
      e ∈ keepLoop msgs fuel s → e ∈ s ∨ ∃ m ∈ msgs, e = m.event_id := by
  intro fuel
  induction fuel with
  | zero => intro s e he; exact Or.inl he
  | succ n ih =>
    intro s e he
    simp only [keepLoop] at he
    split at he
    · exact Or.inl he
    · rcases ih (keepPass msgs s) e he with h | h
      · exact keepPass_bound msgs s e h
      · exact Or.inr h

theorem keepPass_eq_of_closed (msgs : List RawMessage) (s : Finset (Option String))
    (h : ∀ m ∈ msgs, m.event_id ∈ s) : keepPass msgs s = s := by
  apply foldl_fs_const
  intro m hm
  exact passStep_eq_of_mem s m (h m hm)

theorem keepLoop_of_fixed (msgs : List RawMessage)
    (s : Finset (Option String)) (h : keepPass msgs s = s) :
    ∀ fuel : Nat, keepLoop msgs fuel s = s := by
  intro fuel
  cases fuel with
  | zero => rfl
  | succ n => simp [keepLoop, h]

theorem keepLoop_fixed (msgs : List RawMessage) :
    ∀ (fuel : Nat) (s U : Finset (Option String)), s ⊆ U →
      (∀ m ∈ msgs, m.event_id ∈ U) → U.card ≤ s.card + fuel →
      keepPass msgs (keepLoop msgs fuel s) = keepLoop msgs fuel s := by
  intro fuel
  induction fuel with
  | zero =>
    intro s U hsU hmU hcard
    have hus : s = U := Finset.eq_of_subset_of_card_le hsU (by omega)
    show keepPass msgs s = s
    exact keepPass_eq_of_closed msgs s (fun m hm => hus ▸ hmU m hm)
  | succ n ih =>
    intro s U hsU hmU hcard
    simp only [keepLoop]
    split
    · rename_i h
      exact h ▸ h
    · rename_i h
      apply ih (keepPass msgs s) U
      · intro e he
        rcases keepPass_bound msgs s e he with h' | ⟨m, hm, h'⟩
        · exact hsU h'
        · exact h' ▸ hmU m hm
      · exact hmU
      · have hlt : s ⊂ keepPass msgs s :=
          Finset.ssubset_iff_subset_ne.mpr ⟨keepPass_subset msgs s, fun he => h he.symm⟩
        have := Finset.card_lt_card hlt
        omega

theorem keepLoop_extra (msgs : List RawMessage) :
    ∀ (fuel k : Nat) (s U : Finset (Option String)), s ⊆ U →
      (∀ m ∈ msgs, m.event_id ∈ U) → U.card ≤ s.card + fuel →
      keepLoop msgs (fuel + k) s = keepLoop msgs fuel s := by
  intro fuel
  induction fuel with
  | zero =>
    intro k s U hsU hmU hcard
    have hus : s = U := Finset.eq_of_subset_of_card_le hsU (by omega)
    have hfix : keepPass msgs s = s :=
      keepPass_eq_of_closed msgs s (fun m hm => hus ▸ hmU m hm)
    show keepLoop msgs (0 + k) s = s
    rw [Nat.zero_add]
    exact keepLoop_of_fixed msgs s hfix k
  | succ n ih =>
    intro k s U hsU hmU hcard
    have harith : n + 1 + k = (n + k) + 1 := by omega
    rw [harith]
    show (if keepPass msgs s = s then s else keepLoop msgs (n + k) (keepPass msgs s)) =
      (if keepPass msgs s = s then s else keepLoop msgs n (keepPass msgs s))
    split
    · rfl
    · rename_i h
      apply ih k (keepPass msgs s) U
      · intro e he
        rcases keepPass_bound msgs s e he with h' | ⟨m, hm, h'⟩
        · exact hsU h'
        · exact h' ▸ hmU m hm
      · exact hmU
      · have hlt : s ⊂ keepPass msgs s :=
          Finset.ssubset_iff_subset_ne.mpr ⟨keepPass_subset msgs s, fun he => h he.symm⟩
        have := Finset.card_lt_card hlt
        omega

theorem keepIds_invariants (msgs : List RawMessage) (s : Finset (Option String)) :
    s ⊆ s ∪ eidsOf msgs ∧ (∀ m ∈ msgs, m.event_id ∈ s ∪ eidsOf msgs) ∧
      (s ∪ eidsOf msgs).card ≤ s.card + (msgs.length + 1) := by
  refine ⟨Finset.subset_union_left, ?_, ?_⟩
  · intro m hm
    apply Finset.mem_union_right
    simp only [eidsOf, List.mem_toFinset, List.mem_map]
    exact ⟨m, hm, rfl⟩
  · have h1 : (s ∪ eidsOf msgs).card ≤ s.card + (eidsOf msgs).card :=
      Finset.card_union_le s (eidsOf msgs)
    have h2 : (eidsOf msgs).card ≤ msgs.length := by
      have := List.toFinset_card_le (msgs.map (fun m => m.event_id))
      simpa [eidsOf] using this
    omega

/-- The keep-set is a fixed point of the closure pass. -/
theorem keepIds_fixed (msgs : List RawMessage) (cri : Finset (Option String)) :
    keepPass msgs (keepIds msgs cri) = keepIds msgs cri := by
  obtain ⟨h1, h2, h3⟩ := keepIds_invariants msgs (keepSeed msgs cri)
  exact keepLoop_fixed msgs (msgs.length + 1) (keepSeed msgs cri) _ h1 h2 h3

/-- Extra fuel beyond `length + 1` never changes the loop's result: the
`while changed` loop stops within `length + 1` passes on every input. -/
theorem keepLoop_stable (msgs : List RawMessage) (s : Finset (Option String))
    (k : Nat) :
    keepLoop msgs (msgs.length + 1 + k) s = keepLoop msgs (msgs.length + 1) s := by
  obtain ⟨h1, h2, h3⟩ := keepIds_invariants msgs s
  exact keepLoop_extra msgs (msgs.length + 1) k s _ h1 h2 h3

theorem cri_subset_keepIds (msgs : List RawMessage) (cri : Finset (Option String)) :
    cri ⊆ keepIds msgs cri :=
  Finset.Subset.trans (keepSeed_subset msgs cri)
    (keepLoop_subset msgs (msgs.length + 1) (keepSeed msgs cri))

/-- Applying the fixed point: a message of the batch whose truthy parent is
kept has its id kept. -/
theorem keepIds_child (msgs : List RawMessage) (cri : Finset (Option String))
    (m : RawMessage) (hm : m ∈ msgs) (htype : m.type = some "m.room.message")
    (p : String) (hp : get_parent_id m = some p) (hne : p ≠ "")
    (hmem : some p ∈ keepIds msgs cri) : m.event_id ∈ keepIds msgs cri := by
  have hpass : m.event_id ∈ keepPass msgs (keepIds msgs cri) := by
    unfold keepPass
    have step : ∀ (l : List RawMessage) (s : Finset (Option String)),
        m ∈ l → some p ∈ s → m.event_id ∈ l.foldl passStep s := by
      intro l
      induction l with
      | nil => intro s h; exact absurd h (List.not_mem_nil m)
      | cons a t ih =>
        intro s hml hps
        rcases List.mem_cons.mp hml with h | h
        · subst h
          have : m.event_id ∈ passStep s m := passStep_trigger s m htype p hp hne hps
          exact foldl_fs_subset passStep_subset t (passStep s m) this
        · exact ih (passStep s a) h (passStep_subset s a hps)
    exact step msgs (keepIds msgs cri) hm hmem
  rwa [keepIds_fixed msgs cri] at hpass

/-! ### Reachability characterization of the keep-set -/

theorem reaches_mem_keepIds (msgs : List RawMessage) (cri : Finset (Option String))
    (e : Option String) (h : Reaches cri msgs e) : e ∈ keepIds msgs cri := by
  induction h with
  | seed he => exact cri_subset_keepIds msgs cri he
  | step hm htype hp hne _ ihp =>
    exact keepIds_child msgs cri _ hm htype _ hp hne ihp

theorem mem_keepIds_reaches (msgs : List RawMessage) (cri : Finset (Option String))
    (e : Option String) (h : e ∈ keepIds msgs cri) : Reaches cri msgs e := by
  have hstep : ∀ (s : Finset (Option String)) (m : RawMessage), m ∈ msgs →
      (∀ x ∈ s, Reaches cri msgs x) → ∀ x ∈ passStep s m, Reaches cri msgs x := by
    intro s m hm hs x hx
    unfold passStep at hx
    split at hx
    · rename_i hc
      rcases Finset.mem_insert.mp hx with h' | h'
      · obtain ⟨p, hp, hne⟩ := (truthyId_iff (get_parent_id m)).mp hc.2.2.1
        have hpmem : some p ∈ s := hp ▸ hc.2.2.2
        exact h' ▸ Reaches.step hm hc.1 hp hne (hs (some p) hpmem)
      · exact hs x h'
    · exact hs x hx
  have hfirst : ∀ (s : Finset (Option String)) (m : RawMessage), m ∈ msgs →
      (∀ x ∈ s, Reaches cri msgs x) → ∀ x ∈ firstStep cri s m, Reaches cri msgs x := by
    intro s m hm hs x hx
    unfold firstStep at hx
    split at hx
    · rename_i hc
      rcases Finset.mem_insert.mp hx with h' | h'
      · obtain ⟨p, hp, hne⟩ := (truthyId_iff (get_parent_id m)).mp hc.2.1
        have hpmem : some p ∈ cri := hp ▸ hc.2.2
        exact h' ▸ Reaches.step hm hc.1 hp hne (Reaches.seed hpmem)
      · exact hs x h'
    · exact hs x hx
  have hseed : ∀ x ∈ keepSeed msgs cri, Reaches cri msgs x := by
    unfold keepSeed
    exact foldl_fs_inv (fun s => ∀ x ∈ s, Reaches cri msgs x) msgs
      (fun s m hm hs => hfirst s m hm hs) msgs (fun m hm => hm) cri
      (fun x hx => Reaches.seed hx)
  have hpass : ∀ (s : Finset (Option String)),
      (∀ x ∈ s, Reaches cri msgs x) → ∀ x ∈ keepPass msgs s, Reaches cri msgs x := by
    intro s hs
    unfold keepPass
    exact foldl_fs_inv (fun s => ∀ x ∈ s, Reaches cri msgs x) msgs
      (fun s m hm hs => hstep s m hm hs) msgs (fun m hm => hm) s hs
  have hloop : ∀ (fuel : Nat) (s : Finset (Option String)),
      (∀ x ∈ s, Reaches cri msgs x) → ∀ x ∈ keepLoop msgs fuel s, Reaches cri msgs x := by
    intro fuel
    induction fuel with
    | zero => intro s hs; exact hs
    | succ n ih =>
      intro s hs x hx
      simp only [keepLoop] at hx
      split at hx
      · exact hs x hx
      · exact ih (keepPass msgs s) (hpass s hs) x hx
  exact hloop (msgs.length + 1) (keepSeed msgs cri) hseed e h

/-- The keep-set is exactly the set of ids reachable from the seeds. -/
theorem keepIds_iff_reaches (msgs : List RawMessage) (cri : Finset (Option String))
    (e : Option String) : e ∈ keepIds msgs cri ↔ Reaches cri msgs e :=
  ⟨mem_keepIds_reaches msgs cri e, reaches_mem_keepIds msgs cri e⟩

/-! ### Run-level facts about `process_messages` -/

theorem newOnly_sub (B : List RawMessage) (P : Option ExportState) (m : RawMessage)
    (hm : m ∈ newOnly B P) : m ∈ B := by
  cases P with
  | none => exact hm
  | some e => exact (List.mem_filter.mp hm).1

theorem foldl_cri_trigger :
    ∀ (l : List RawMessage) (s : Finset (Option String)) (m : RawMessage) (e : String),
      m ∈ l → is_category_post m = true → m.event_id = some e → e ≠ "" →
      some e ∈ l.foldl criStep s := by
  intro l
  induction l with
  | nil => intro s m e hm; exact absurd hm (List.not_mem_nil m)
  | cons a t ih =>
    intro s m e hm hc hi hn
    rcases List.mem_cons.mp hm with h | h
    · subst h
      exact foldl_fs_subset criStep_subset t (criStep s m) (criStep_trigger s m e hc hi hn)
    · exact ih (criStep s a) m e h hc hi hn

theorem criOf_trigger (B : List RawMessage) (P : Option ExportState)
    (m : RawMessage) (e : String) (hm : m ∈ newOnly B P)
    (hc : is_category_post m = true) (hi : m.event_id = some e) (hn : e ≠ "") :
    some e ∈ criOf B P :=
  foldl_cri_trigger (newOnly B P) (erOf P) m e hm hc hi hn

theorem erOf_subset_criOf (B : List RawMessage) (P : Option ExportState) :
    erOf P ⊆ criOf B P :=
  foldl_fs_subset criStep_subset (newOnly B P) (erOf P)

theorem criOf_subset_keepOf (B : List RawMessage) (P : Option ExportState) :
    criOf B P ⊆ keepOf B P :=
  cri_subset_keepIds (newOnly B P) (criOf B P)

theorem keepOf_bound (B : List RawMessage) (P : Option ExportState)
    (e : Option String) (he : e ∈ keepOf B P) :
    e ∈ erOf P ∨ ∃ m ∈ newOnly B P, e = m.event_id := by
  rcases keepLoop_bound (newOnly B P) (newOnly B P).length.succ (keepSeed (newOnly B P) (criOf B P)) e he with h | h
  · rcases foldl_fs_mem (fun m e => e = m.event_id)
      (fun s m e => firstStep_mem (criOf B P) s m e) (newOnly B P) (criOf B P) e h with h' | h'
    · rcases foldl_fs_mem (fun m e => e = m.event_id)
        (fun s m e => criStep_mem s m e) (newOnly B P) (erOf P) e h' with h'' | h''
      · exact Or.inl h''
      · exact Or.inr h''
    · exact Or.inr h'
  · exact Or.inr h

theorem keptOf_mem (B : List RawMessage) (P : Option ExportState) (m : RawMessage) :
    m ∈ keptOf B P ↔ m ∈ newOnly B P ∧ m.event_id ∈ keepOf B P := by
  unfold keptOf
  rw [sortBy_mem, List.mem_filter]
  simp

theorem minimalNew_mem (B : List RawMessage) (P : Option ExportState)
    (r : MinimalMessage) (hr : r ∈ minimalNewOf B P) :
    ∃ m : RawMessage, m ∈ newOnly B P ∧ m.event_id ∈ keepOf B P ∧
      r = to_minimal_message m (decide (m.event_id ∉ criOf B P)) (build_edit_map B) := by
  unfold minimalNewOf at hr
  rcases List.mem_map.mp hr with ⟨m, hm, hr'⟩
  rcases (keptOf_mem B P m).mp hm with ⟨h1, h2⟩
  exact ⟨m, h1, h2, hr'.symm⟩

theorem minimalNew_id_keep (B : List RawMessage) (P : Option ExportState)
    (r : MinimalMessage) (hr : r ∈ minimalNewOf B P) : r.id ∈ keepOf B P := by
  rcases minimalNew_mem B P r hr with ⟨m, _, h2, hr'⟩
  rw [hr']
  exact h2

theorem minimalNew_pairwise (B : List RawMessage) (P : Option ExportState) :
    (minimalNewOf B P).Pairwise (fun a b : MinimalMessage => a.ts ≤ b.ts) := by
  unfold minimalNewOf
  rw [List.pairwise_map]
  exact sortBy_pairwise tsOf _

theorem passStep_skip (s : Finset (Option String)) (m : RawMessage)
    (h : ¬(m.type = some "m.room.message" ∧ m.event_id ∉ s ∧
        truthyId (get_parent_id m) = true ∧ get_parent_id m ∈ s)) :
    passStep s m = s := by
  unfold passStep
  rw [if_neg h]

/-! ### A second merge of the same batch is a no-op

If a state `S` carries `prior-ids ∪ keep-ids` of a first run of batch `B`
over prior `P`, its root records are all keep-ids of that run, and its
message list is sort-stable, then merging `B` into `S` changes nothing. -/

theorem merge_noop (B : List RawMessage) (P : Option ExportState) (S : ExportState)
    (hSm : S.messages ≠ [])
    (hproc : S.processed_ids = alreadyOf P ∪ keepOf B P)
    (hroots : existingRootIds S.messages ⊆ keepOf B P)
    (hsorted : sortBy (fun m : MinimalMessage => m.ts) S.messages = S.messages) :
    process_messages B (some S) = S := by
  have h_in : ∀ m ∈ newOnly B (some S), m ∈ newOnly B P ∧ m.event_id ∉ keepOf B P := by
    intro m hm
    have h1 := List.mem_filter.mp hm
    have h2 : m.event_id ∉ S.processed_ids := of_decide_eq_true h1.2
    rw [hproc] at h2
    have h3 : m.event_id ∉ alreadyOf P := fun hc => h2 (Finset.mem_union_left _ hc)
    have h4 : m.event_id ∉ keepOf B P := fun hc => h2 (Finset.mem_union_right _ hc)
    refine ⟨?_, h4⟩
    cases P with
    | none => exact h1.1
    | some e => exact List.mem_filter.mpr ⟨h1.1, decide_eq_true h3⟩
  have her2 : erOf (some S) ⊆ keepOf B P := hroots
  have hcri2 : criOf B (some S) = erOf (some S) := by
    unfold criOf categoryRootIds
    apply foldl_fs_const
    intro m hm
    apply criStep_skip
    rintro ⟨hc, ht⟩
    obtain ⟨e, hi, hn⟩ := (truthyId_iff m.event_id).mp ht
    have hcr := criOf_trigger B P m e (h_in m hm).1 hc hi hn
    have hk : m.event_id ∈ keepOf B P := by
      rw [hi]
      exact criOf_subset_keepOf B P hcr
    exact (h_in m hm).2 hk
  have hsub2 : criOf B (some S) ⊆ keepOf B P := by
    rw [hcri2]
    exact her2
  have hseed2 : keepSeed (newOnly B (some S)) (criOf B (some S)) = criOf B (some S) := by
    unfold keepSeed
    apply foldl_fs_const
    intro m hm
    apply firstStep_skip
    rintro ⟨htype, htri, hmem⟩
    obtain ⟨p, hp, hn⟩ := (truthyId_iff (get_parent_id m)).mp htri
    have hpk : some p ∈ keepOf B P := hp ▸ hsub2 hmem
    have := keepIds_child (newOnly B P) (criOf B P) m (h_in m hm).1 htype p hp hn hpk
    exact (h_in m hm).2 this
  have hpass2 : keepPass (newOnly B (some S)) (criOf B (some S)) = criOf B (some S) := by
    unfold keepPass
    apply foldl_fs_const
    intro m hm
    apply passStep_skip
    rintro ⟨htype, _, htri, hmem⟩
    obtain ⟨p, hp, hn⟩ := (truthyId_iff (get_parent_id m)).mp htri
    have hpk : some p ∈ keepOf B P := hp ▸ hsub2 hmem
    have := keepIds_child (newOnly B P) (criOf B P) m (h_in m hm).1 htype p hp hn hpk
    exact (h_in m hm).2 this
  have hkeep2 : keepOf B (some S) = criOf B (some S) := by
    unfold keepOf keepIds
    rw [hseed2]
    exact keepLoop_of_fixed _ _ hpass2 _
  have hfilter2 : (newOnly B (some S)).filter
      (fun m => decide (m.event_id ∈ keepOf B (some S))) = [] := by
    rw [List.filter_eq_nil_iff]
    intro m hm
    simp only [decide_eq_true_eq]
    intro hmem
    rw [hkeep2] at hmem
    exact (h_in m hm).2 (hsub2 hmem)
  have hkept2 : keptOf B (some S) = [] := by
    unfold keptOf
    rw [hfilter2]
    rfl
  have hmn2 : minimalNewOf B (some S) = [] := by
    unfold minimalNewOf
    rw [hkept2]
    rfl
  obtain ⟨Sm, Sp, Sl⟩ := S
  unfold process_messages
  rw [if_pos (by exact hSm)]
  have h1 : sortBy (fun m : MinimalMessage => m.ts) (exMsgsOf (some ⟨Sm, Sp, Sl⟩) ++
      minimalNewOf B (some ⟨Sm, Sp, Sl⟩)) = Sm := by
    rw [hmn2, List.append_nil]
    exact hsorted
  have h2 : alreadyOf (some ⟨Sm, Sp, Sl⟩) ∪ keepOf B (some ⟨Sm, Sp, Sl⟩) = Sp := by
    rw [hkeep2, hcri2]
    apply Finset.union_eq_left.mpr
    intro x hx
    have : x ∈ alreadyOf P ∪ keepOf B P := Finset.mem_union_right _ (her2 hx)
    rw [← hproc] at this
    exact this
  have h3 : lastTs (keptOf B (some ⟨Sm, Sp, Sl⟩)) (exLastOf (some ⟨Sm, Sp, Sl⟩)) = Sl := by
    rw [hkept2]
    rfl
  rw [h1, h2, h3]

theorem process_messages_existing (B : List RawMessage) (P : Option ExportState)
    (h : exMsgsOf P ≠ []) :
    process_messages B P =
      { messages := sortBy (fun m : MinimalMessage => m.ts) (exMsgsOf P ++ minimalNewOf B P)
        processed_ids := alreadyOf P ∪ keepOf B P
        last_processed_ts := lastTs (keptOf B P) (exLastOf P) } := by
  unfold process_messages
  rw [if_pos h]

theorem process_messages_fresh (B : List RawMessage) (P : Option ExportState)
    (h : exMsgsOf P = []) :
    process_messages B P =
      { messages := minimalNewOf B P
        processed_ids := keepOf B P
        last_processed_ts := lastTs (keptOf B P) (exLastOf P) } := by
  unfold process_messages
  rw [if_neg (by simp [h])]

theorem mem_existingRootIds (ms : List MinimalMessage) (x : Option String) :
    x ∈ existingRootIds ms ↔
      ∃ r ∈ ms, truthyId r.parent_id = false ∧ r.id = x := by
  unfold existingRootIds
  simp only [List.mem_toFinset, List.mem_map, List.mem_filter, Bool.not_eq_true']
  constructor
  · rintro ⟨r, ⟨hr, ht⟩, hid⟩
    exact ⟨r, hr, ht, hid⟩
  · rintro ⟨r, hr, ht, hid⟩
    exact ⟨r, ⟨hr, ht⟩, hid⟩

/-- Idempotence of the merge for a prior that is absent or has a non-empty
message list: merging the same batch into the produced state changes nothing. -/
theorem process_messages_idem (B : List RawMessage) (P : Option ExportState)
    (hP : P = none ∨ ∃ e : ExportState, P = some e ∧ e.messages ≠ []) :
    process_messages B (some (process_messages B P)) = process_messages B P := by
  rcases hP with hP | ⟨e, hP, he⟩
  · subst hP
    by_cases h0 : minimalNewOf B none = []
    · -- nothing was kept: the produced state is the empty state and the
      -- second run reproduces it verbatim
      have hkept0 : keptOf B none = [] := by
        have : minimalNewOf B none = (keptOf B none).map _ := rfl
        rw [this] at h0
        exact List.map_eq_nil_iff.mp h0
      have hfilter0 : (newOnly B none).filter
          (fun m => decide (m.event_id ∈ keepOf B none)) = [] := by
        have hlen := sortBy_length tsOf ((newOnly B none).filter
          (fun m => decide (m.event_id ∈ keepOf B none)))
        have : keptOf B none = sortBy tsOf ((newOnly B none).filter
          (fun m => decide (m.event_id ∈ keepOf B none))) := rfl
        rw [this] at hkept0
        rw [hkept0] at hlen
        exact List.length_eq_zero.mp hlen.symm
      have hkeep0 : keepOf B none = ∅ := by
        apply Finset.eq_empty_iff_forall_not_mem.mpr
        intro x hx
        rcases keepOf_bound B none x hx with h | ⟨m, hm, hx'⟩
        · exact absurd h (Finset.not_mem_empty x)
        · have hmf : m ∈ (newOnly B none).filter
              (fun m => decide (m.event_id ∈ keepOf B none)) :=
            List.mem_filter.mpr ⟨hm, decide_eq_true (hx' ▸ hx)⟩
          rw [hfilter0] at hmf
          exact absurd hmf (List.not_mem_nil m)
      have hS : process_messages B none = (⟨[], ∅, 0⟩ : ExportState) := by
        rw [process_messages_fresh B none rfl, h0, hkeep0, hkept0]
        rfl
      rw [hS]
      have hno : newOnly B (some (⟨[], ∅, 0⟩ : ExportState)) = B := by
        apply List.filter_eq_self.mpr
        intro m _
        exact decide_eq_true (Finset.not_mem_empty m.event_id)
      have hcri : criOf B (some (⟨[], ∅, 0⟩ : ExportState)) = criOf B none := by
        unfold criOf
        rw [hno]
        rfl
      have hkeep : keepOf B (some (⟨[], ∅, 0⟩ : ExportState)) = ∅ := by
        unfold keepOf
        rw [hno, hcri]
        exact hkeep0
      have hkept : keptOf B (some (⟨[], ∅, 0⟩ : ExportState)) = [] := by
        unfold keptOf
        rw [hkeep]
        have hf : (newOnly B (some (⟨[], ∅, 0⟩ : ExportState))).filter
            (fun m => decide (m.event_id ∈ (∅ : Finset (Option String)))) = [] := by
          apply List.filter_eq_nil_iff.mpr
          intro m _
          simp
        rw [hf]
        rfl
      rw [process_messages_fresh B (some (⟨[], ∅, 0⟩ : ExportState)) rfl]
      have hmn : minimalNewOf B (some (⟨[], ∅, 0⟩ : ExportState)) = [] := by
        unfold minimalNewOf
        rw [hkept]
        rfl
      rw [hmn, hkeep, hkept]
      rfl
    · -- something was kept: the generic no-op argument applies
      have hS : process_messages B none =
          { messages := minimalNewOf B none, processed_ids := keepOf B none
            last_processed_ts := lastTs (keptOf B none) (exLastOf none) } :=
        process_messages_fresh B none rfl
      apply merge_noop B none
      · rw [hS]
        exact h0
      · rw [hS]
        show keepOf B none = ∅ ∪ keepOf B none
        rw [Finset.empty_union]
      · rw [hS]
        intro x hx
        rcases (mem_existingRootIds _ x).mp hx with ⟨r, hr, _, hid⟩
        exact hid ▸ minimalNew_id_keep B none r hr
      · rw [hS]
        exact sortBy_eq_self _ _ (minimalNew_pairwise B none)
  · subst hP
    have hS : process_messages B (some e) =
        { messages := sortBy (fun m : MinimalMessage => m.ts)
            (exMsgsOf (some e) ++ minimalNewOf B (some e))
          processed_ids := alreadyOf (some e) ∪ keepOf B (some e)
          last_processed_ts := lastTs (keptOf B (some e)) (exLastOf (some e)) } :=
      process_messages_existing B (some e) he
    apply merge_noop B (some e)
    · rw [hS]
      intro hnil
      have hnil' : sortBy (fun m : MinimalMessage => m.ts)
          (exMsgsOf (some e) ++ minimalNewOf B (some e)) = [] := hnil
      have := sortBy_length (fun m : MinimalMessage => m.ts)
        (exMsgsOf (some e) ++ minimalNewOf B (some e))
      rw [hnil'] at this
      simp only [List.length_nil, List.length_append] at this
      have : e.messages.length = 0 := by
        have hx : (exMsgsOf (some e)).length = e.messages.length := rfl
        omega
      exact he (List.length_eq_zero.mp this)
    · rw [hS]
    · rw [hS]
      intro x hx
      rcases (mem_existingRootIds _ x).mp hx with ⟨r, hr, ht, hid⟩
      rw [sortBy_mem] at hr
      rcases List.mem_append.mp hr with hr | hr
      · -- a root carried from the prior state: member of the run's seeds
        have hr' : x ∈ erOf (some e) := by
          apply (mem_existingRootIds e.messages x).mpr
          exact ⟨r, hr, ht, hid⟩
        exact criOf_subset_keepOf B (some e) (erOf_subset_criOf B (some e) hr')
      · exact hid ▸ minimalNew_id_keep B (some e) r hr
    · rw [hS]
      exact sortBy_eq_self _ _ (sortBy_pairwise _ _)

/-! ### Characterization of the root-candidate test -/

theorem is_category_post_iff (msg : RawMessage) :
    is_category_post msg = true ↔
      msg.type = some "m.room.message" ∧
      ((msg.content.getD emptyContent).relates_to.getD emptyRelatesTo).rel_type ≠
        some "m.replace" ∧
      ((msg.content.getD emptyContent).relates_to.getD emptyRelatesTo).rel_type ≠
        some "m.thread" ∧
      ∃ e ∈ CATEGORY_EMOJIS, startsWithGlyph (normalizedBody msg) e = true := by
  by_cases h1 : msg.type = some "m.room.message" <;>
  by_cases h2 : ((msg.content.getD emptyContent).relates_to.getD emptyRelatesTo).rel_type =
      some "m.replace" <;>
  by_cases h3 : ((msg.content.getD emptyContent).relates_to.getD emptyRelatesTo).rel_type =
      some "m.thread" <;>
  simp [is_category_post, h1, h2, h3, List.any_eq_true]

/-! ### The emitted record's keys and fields -/

theorem keywords_mem_recordKeys (r : MinimalMessage) :
    "keywords" ∈ recordKeys r ↔ r.keywords.isSome = true := by
  cases r.formatted_body <;> cases hk : r.keywords <;> simp [recordKeys, hk]

theorem parent_id_mem_recordKeys (r : MinimalMessage) :
    "parent_id" ∈ recordKeys r := by
  simp [recordKeys]

theorem to_minimal_message_parent_id_root (msg : RawMessage)
    (em : String → Option (String × String)) :
    (to_minimal_message msg false em).parent_id = none := by
  simp [to_minimal_message]

theorem to_minimal_message_parent_id_reply (msg : RawMessage)
    (em : String → Option (String × String)) :
    (to_minimal_message msg true em).parent_id = get_parent_id msg := by
  simp [to_minimal_message]

theorem to_minimal_message_keywords (msg : RawMessage) (is_reply : Bool)
    (em : String → Option (String × String)) :
    (to_minimal_message msg is_reply em).keywords =
      if is_reply = true then none
      else if extract_keywords ((to_minimal_message msg is_reply em).body) ≠ [] then
        some (extract_keywords ((to_minimal_message msg is_reply em).body))
      else none := by
  cases is_reply <;> simp [to_minimal_message]

/-! ### The journal / link decision -/

theorem get_message_type_journal (msg : RawMessage)
    (h : (normalizedBody msg).head? = some '📥') :
    get_message_type msg false =
      if is_link_only (pyLstripS (get_message_content msg).1) = true
      then "link" else "journal" := by
  obtain ⟨t, ht⟩ : ∃ t, normalizedBody msg = '📥' :: t := by
    cases hnb : normalizedBody msg with
    | nil => rw [hnb] at h; exact absurd h (by simp)
    | cons c cs =>
      rw [hnb] at h
      simp only [List.head?_cons, Option.some.injEq] at h
      exact ⟨cs, by rw [h]⟩
  have hpred : (fun p : Char × String =>
      startsWithGlyph (normalizedBody msg) p.1
        || startsWithGlyphVar (normalizedBody msg) p.1) ('📥', "journal") = true := by
    rw [ht]
    simp [startsWithGlyph]
  have hfind : EMOJI_TO_TYPE.find? (fun p : Char × String =>
      startsWithGlyph (normalizedBody msg) p.1
        || startsWithGlyphVar (normalizedBody msg) p.1) = some ('📥', "journal") :=
    List.find?_cons_of_pos _ hpred
  unfold get_message_type
  rw [if_neg (by simp)]
  rw [hfind]
  show (if ("journal" : String) = "journal" ∧
      is_link_only (pyLstripS (get_message_content msg).1) = true
    then "link" else "journal") = _
  by_cases hl : is_link_only (pyLstripS (get_message_content msg).1) = true
  · rw [if_pos ⟨rfl, hl⟩, if_pos hl]
  · rw [if_neg (fun hc => hl hc.2), if_neg hl]

/-! ### The edit-override map -/

theorem editStep_of_target (em : String → Option (String × String))
    (m : RawMessage) (t b fb : String) (hm : editTarget m = some (t, b, fb)) :
    editStep em m = fun k => if k = t then some (b, fb) else em k := by
  unfold editStep
  rw [hm]

theorem editStep_skip (em : String → Option (String × String)) (m : RawMessage)
    (t : String) (h : ∀ x : String × String × String, editTarget m = some x → x.1 ≠ t) :
    editStep em m t = em t := by
  unfold editStep
  cases he : editTarget m with
  | none => rfl
  | some x =>
    obtain ⟨oid, b, fb⟩ := x
    have hne : oid ≠ t := h (oid, b, fb) he
    simp only
    rw [if_neg (fun hc : t = oid => hne hc.symm)]

theorem edit_fold_skip (t : String) :
    ∀ (l : List RawMessage) (em : String → Option (String × String)),
      (∀ m' ∈ l, ∀ x : String × String × String, editTarget m' = some x → x.1 ≠ t) →
      (l.foldl editStep em) t = em t := by
  intro l
  induction l with
  | nil => intro em _; rfl
  | cons a l2 ih =>
    intro em h
    show (l2.foldl editStep (editStep em a)) t = em t
    rw [ih (editStep em a) (fun m' hm' => h m' (List.mem_cons_of_mem a hm'))]
    exact editStep_skip em a t (h a (List.mem_cons_self a l2))

/-- Last replace wins: if `m` targets `t` and no later event in the batch
targets `t`, the map sends `t` to `m`'s replacement content. -/
theorem build_edit_map_last (l1 l2 : List RawMessage) (m : RawMessage)
    (t b fb : String) (hm : editTarget m = some (t, b, fb))
    (hl2 : ∀ m' ∈ l2, ∀ x : String × String × String, editTarget m' = some x → x.1 ≠ t) :
    build_edit_map (l1 ++ m :: l2) t = some (b, fb) := by
  unfold build_edit_map
  rw [List.foldl_append]
  show (l2.foldl editStep (editStep _ m)) t = some (b, fb)
  rw [edit_fold_skip t l2 _ hl2, editStep_of_target _ m t b fb hm]
  simp

theorem to_minimal_override (msg : RawMessage) (is_reply : Bool)
    (em : String → Option (String × String)) (e b fb : String)
    (hid : msg.event_id = some e) (hem : em e = some (b, fb)) :
    (to_minimal_message msg is_reply em).body = b ∧
    (to_minimal_message msg is_reply em).formatted_body =
      (if fb ≠ "" then some fb else none) := by
  constructor <;> simp [to_minimal_message, hid, hem]

/-! ### Structure of the extracted keyword list -/

theorem dedupFirstGo_not_mem_seen {α : Type} [DecidableEq α] :
    ∀ (l seen : List α) (a : α), a ∈ dedupFirstGo seen l → a ∉ seen := by
  intro l
  induction l with
  | nil => intro seen a ha; exact absurd ha (List.not_mem_nil a)
  | cons b t ih =>
    intro seen a ha
    unfold dedupFirstGo at ha
    split at ha
    · exact ih seen a ha
    · rcases List.mem_cons.mp ha with h | h
      · rename_i hb
        exact h ▸ hb
      · intro hseen
        exact ih (b :: seen) a h (List.mem_cons_of_mem b hseen)

theorem dedupFirstGo_nodup {α : Type} [DecidableEq α] :
    ∀ l seen : List α, (dedupFirstGo seen l).Nodup := by
  intro l
  induction l with
  | nil => intro seen; exact List.nodup_nil
  | cons b t ih =>
    intro seen
    unfold dedupFirstGo
    split
    · exact ih seen
    · refine List.nodup_cons.mpr ⟨?_, ih (b :: seen)⟩
      intro hb
      exact dedupFirstGo_not_mem_seen t (b :: seen) b hb (List.mem_cons_self b seen)

theorem extract_keywords_len (body : String) :
    (extract_keywords body).length ≤ 15 := by
  unfold extract_keywords
  rw [List.length_map]
  calc ((dedupFirst _).take 15).length ≤ 15 := by
        rw [List.length_take]
        omega

theorem extract_keywords_nodup (body : String) :
    (extract_keywords body).Nodup := by
  unfold extract_keywords
  apply List.Nodup.map
  · intro a b hab
    have h := congrArg String.data hab
    simpa using h
  · exact List.Nodup.sublist (List.take_sublist 15 _) (dedupFirstGo_nodup _ [])

/-! ### The edit-target fallback equations -/

theorem editTarget_nested (m : RawMessage) (c : Content) (r : RelatesTo)
    (t : String) (nc : NewContent) (h1 : m.type = some "m.room.message")
    (h2 : m.content = some c) (h3 : c.relates_to = some r)
    (h4 : r.rel_type = some "m.replace") (h5 : r.event_id = some t) (h6 : t ≠ "")
    (h7 : c.new_content = some nc) :
    editTarget m = some (t, nc.body.getD "", nc.formatted_body.getD "") := by
  simp [editTarget, h1, h2, h3, h4, h5, h6, h7]

theorem editTarget_top_level (m : RawMessage) (c : Content) (r : RelatesTo)
    (t : String) (h1 : m.type = some "m.room.message")
    (h2 : m.content = some c) (h3 : c.relates_to = some r)
    (h4 : r.rel_type = some "m.replace") (h5 : r.event_id = some t) (h6 : t ≠ "")
    (h7 : c.new_content = none) :
    editTarget m = some (t, c.body.getD "", c.formatted_body.getD "") := by
  simp [editTarget, h1, h2, h3, h4, h5, h6, h7]

/-! ## The claims -/

/-- Claim C1, counterexample: a glyph-prefixed message whose only relation is
an `m.in_reply_to` (direct-reply) reference *is* accepted by the
root-candidate test, and the merge emits it with the root role (glyph type,
no parent), contradicting the claim that a direct-reply relation
disqualifies a root candidate. -/
theorem C1_counterexample :
    is_category_post exGlyphReply = true ∧
    get_parent_id exGlyphReply = some "X" ∧
    (process_messages [exGlyphReply] none).messages.map (fun r => (r.type, r.parent_id)) =
      [("idea", none)] := by
  decide

/-- Claim C1, amended: the root-candidate test accepts a raw message exactly
when it is a room message, its relation block's `rel_type` is neither
`m.replace` nor `m.thread`, and its normalized body prefix starts with one of
the seven marker glyphs — a direct-reply (`m.in_reply_to`) relation does
*not* disqualify it. -/
theorem C1_amended (msg : RawMessage) :
    is_category_post msg = true ↔
      msg.type = some "m.room.message" ∧
      ((msg.content.getD emptyContent).relates_to.getD emptyRelatesTo).rel_type ≠
        some "m.replace" ∧
      ((msg.content.getD emptyContent).relates_to.getD emptyRelatesTo).rel_type ≠
        some "m.thread" ∧
      ∃ e ∈ CATEGORY_EMOJIS, startsWithGlyph (normalizedBody msg) e = true :=
  is_category_post_iff msg

/-- Claim C2, counterexample: for a prior state with an empty message list
but a non-empty `processed_ids`, the merge drops the prior ids (the
`if existing_messages:` branch is selected on the message list, not on the
presence of a prior), so merging the same batch into the produced state is
not a no-op: the second run keeps the root `A` the first run had skipped. -/
theorem C2_counterexample :
    process_messages [exRootIdea]
      (some (process_messages [exRootIdea] (some exBadPriorA))) ≠
    process_messages [exRootIdea] (some exBadPriorA) := by
  decide

/-- Claim C2, amended: for every batch `B` and prior `P` that is absent or
has a non-empty message list, merging `B` a second time into the state
produced by the first merge returns that state unchanged — same messages
(the re-sort is a no-op), same `processed_ids`, same `last_processed_ts`. -/
theorem C2_amended (B : List RawMessage) (P : Option ExportState)
    (hP : P = none ∨ ∃ e : ExportState, P = some e ∧ e.messages ≠ []) :
    process_messages B (some (process_messages B P)) = process_messages B P :=
  process_messages_idem B P hP

/-- Claim C2, witness: idempotence at a concrete batch with no prior. -/
theorem C2_witness :
    process_messages [exRootIdea] (some (process_messages [exRootIdea] none)) =
      process_messages [exRootIdea] none :=
  C2_amended [exRootIdea] none (Or.inl rfl)

/-- Claim C3: every record of the prior state's message list appears
unchanged in the merged output — the merge only appends newly built records,
so an edit event of this batch targeting a previously persisted message does
not change that record. -/
theorem C3_frame (B : List RawMessage) (P : ExportState) (r : MinimalMessage)
    (hr : r ∈ P.messages) : r ∈ (process_messages B (some P)).messages := by
  have hne : exMsgsOf (some P) ≠ [] := by
    intro h
    have h' : P.messages = [] := h
    rw [h'] at hr
    exact absurd hr (List.not_mem_nil r)
  rw [process_messages_existing B (some P) hne]
  show r ∈ sortBy _ (exMsgsOf (some P) ++ minimalNewOf B (some P))
  rw [sortBy_mem]
  exact List.mem_append_left _ hr

/-- Claim C3, witness: the persisted record `O` (body "old") survives a merge
whose batch contains a replace event targeting `O`. -/
theorem C3_witness :
    exOldRec ∈ (process_messages [exEditO] (some exPriorE)).messages :=
  C3_frame [exEditO] exPriorE exOldRec (by decide)

/-- Claim C4: the keep-set computed by the closure loop is exactly the seed
root set plus everything transitively reachable from a seed through resolved
truthy parent references of the batch's room messages (chains of arbitrary
depth are kept; a message whose parent reference never resolves into the
keep-set is excluded), and every record emitted by a fresh merge has its id
in the keep-set. -/
theorem C4_closure :
    (∀ (msgs : List RawMessage) (seeds : Finset (Option String)) (e : Option String),
      e ∈ keepIds msgs seeds ↔ Reaches seeds msgs e) ∧
    (∀ (B : List RawMessage) (r : MinimalMessage),
      r ∈ (process_messages B none).messages → r.id ∈ keepOf B none) := by
  constructor
  · exact keepIds_iff_reaches
  · intro B r hr
    rw [process_messages_fresh B none rfl] at hr
    exact minimalNew_id_keep B none r hr

/-- Claim C4, witness: the record emitted for a concrete root has its id in
the keep-set. -/
theorem C4_witness :
    (to_minimal_message exRootIdea false (build_edit_map [exRootIdea])).id ∈
      keepOf [exRootIdea] none :=
  C4_closure.2 [exRootIdea] _ (by decide)

/-- Claim C5, counterexample: the record emitted for a concrete root carries
the `parent_id` key with a null (`none`) value — the key is not absent on
roots as claimed. -/
theorem C5_counterexample :
    "parent_id" ∈ recordKeys (to_minimal_message exRootIdea false
      (build_edit_map [exRootIdea])) ∧
    (to_minimal_message exRootIdea false (build_edit_map [exRootIdea])).parent_id =
      none ∧
    to_minimal_message exRootIdea false (build_edit_map [exRootIdea]) ∈
      (process_messages [exRootIdea] none).messages := by
  decide

/-- Claim C5, amended: every emitted record carries the `parent_id` key; its
value is null on roots and the resolved parent id on replies; the `keywords`
key is present exactly on roots whose extracted keyword list is non-empty. -/
theorem C5_amended (msg : RawMessage) (is_reply : Bool)
    (em : String → Option (String × String)) :
    "parent_id" ∈ recordKeys (to_minimal_message msg is_reply em) ∧
    (is_reply = false → (to_minimal_message msg is_reply em).parent_id = none) ∧
    (is_reply = true → (to_minimal_message msg is_reply em).parent_id =
      get_parent_id msg) ∧
    ("keywords" ∈ recordKeys (to_minimal_message msg is_reply em) ↔
      is_reply = false ∧
        extract_keywords ((to_minimal_message msg is_reply em).body) ≠ []) := by
  refine ⟨parent_id_mem_recordKeys _, ?_, ?_, ?_⟩
  · intro h
    subst h
    exact to_minimal_message_parent_id_root msg em
  · intro h
    subst h
    exact to_minimal_message_parent_id_reply msg em
  · rw [keywords_mem_recordKeys, to_minimal_message_keywords]
    cases is_reply with
    | false =>
      by_cases hk : extract_keywords ((to_minimal_message msg false em).body) = [] <;>
        simp [hk]
    | true => simp

/-- Claim C5, witness: the amended statement at a concrete root record and a
concrete reply record. -/
theorem C5_witness :
    (to_minimal_message exRootIdea false (build_edit_map [])).parent_id = none ∧
    "parent_id" ∈ recordKeys (to_minimal_message exRootIdea false (build_edit_map [])) ∧
    (to_minimal_message exGlyphReply true (build_edit_map [])).parent_id =
      get_parent_id exGlyphReply :=
  ⟨(C5_amended exRootIdea false (build_edit_map [])).2.1 rfl,
   (C5_amended exRootIdea false (build_edit_map [])).1,
   (C5_amended exGlyphReply true (build_edit_map [])).2.2.1 rfl⟩

/-- Claim C6, counterexample: a prior state with no messages but a non-empty
`processed_ids` loses its ids across a merge — `processed_ids` is not
monotone for every prior state. -/
theorem C6_counterexample :
    some "Z" ∈ exBadPriorZ.processed_ids ∧
    some "Z" ∉ (process_messages [] (some exBadPriorZ)).processed_ids := by
  decide

/-- Claim C6, amended: for every batch and every prior state with a
non-empty message list, the merged `processed_ids` is a superset of the
prior's `processed_ids`. -/
theorem C6_amended (B : List RawMessage) (e : ExportState) (he : e.messages ≠ []) :
    e.processed_ids ⊆ (process_messages B (some e)).processed_ids := by
  rw [process_messages_existing B (some e) he]
  exact Finset.subset_union_left

/-- Claim C6, witness: monotonicity at a concrete prior with messages. -/
theorem C6_witness :
    exPriorE.processed_ids ⊆
      (process_messages [exRootIdea] (some exPriorE)).processed_ids :=
  C6_amended [exRootIdea] exPriorE (by decide)

/-- Claim C7: a root whose normalized body starts with the 📥 reading-note
glyph classifies as `link` exactly when `is_link_only` holds of its
(left-stripped) body, else as `journal`; concretely a bare-URL 📥 body is a
`link` and a 📥 body with well over 100 characters of prose is a `journal`. -/
theorem C7_link_override :
    (∀ msg : RawMessage, (normalizedBody msg).head? = some '📥' →
      get_message_type msg false =
        if is_link_only (pyLstripS (get_message_content msg).1) = true
        then "link" else "journal") ∧
    get_message_type exLinkMsg false = "link" ∧
    get_message_type exJournalMsg false = "journal" :=
  ⟨get_message_type_journal, by decide, by decide⟩

/-- Claim C7, witness: the general journal/link decision applied to the
concrete bare-URL message. -/
theorem C7_witness :
    get_message_type exLinkMsg false =
      if is_link_only (pyLstripS (get_message_content exLinkMsg).1) = true
      then "link" else "journal" :=
  C7_link_override.1 exLinkMsg (by decide)

/-- Claim C8: the edit map gives the last replace event in scan order for
each target, with content from the nested new-content field when present
else the top-level content; a kept message whose id is a target is emitted
with the override body and formatted body (the latter under the emptiness
guard of the output schema); the map is built from the entire batch, so an
edit event whose id is already in `processed_ids` still corrects the text of
a message kept this run. -/
theorem C8_edit_resolution :
    (∀ (l1 l2 : List RawMessage) (m : RawMessage) (t b fb : String),
      editTarget m = some (t, b, fb) →
      (∀ m' ∈ l2, ∀ x : String × String × String, editTarget m' = some x → x.1 ≠ t) →
      build_edit_map (l1 ++ m :: l2) t = some (b, fb)) ∧
    (∀ (m : RawMessage) (c : Content) (r : RelatesTo) (t : String) (nc : NewContent),
      m.type = some "m.room.message" → m.content = some c → c.relates_to = some r →
      r.rel_type = some "m.replace" → r.event_id = some t → t ≠ "" →
      c.new_content = some nc →
      editTarget m = some (t, nc.body.getD "", nc.formatted_body.getD "")) ∧
    (∀ (m : RawMessage) (c : Content) (r : RelatesTo) (t : String),
      m.type = some "m.room.message" → m.content = some c → c.relates_to = some r →
      r.rel_type = some "m.replace" → r.event_id = some t → t ≠ "" →
      c.new_content = none →
      editTarget m = some (t, c.body.getD "", c.formatted_body.getD "")) ∧
    (∀ (msg : RawMessage) (is_reply : Bool) (em : String → Option (String × String))
      (e b fb : String), msg.event_id = some e → em e = some (b, fb) →
      (to_minimal_message msg is_reply em).body = b ∧
      (to_minimal_message msg is_reply em).formatted_body =
        (if fb ≠ "" then some fb else none)) ∧
    ((process_messages [exRootIdea, exEdit] none).messages.map
      (fun r => (r.id, r.body)) = [(some "A", "final")]) ∧
    ((process_messages [exRootIdea, exEditF] none).messages.map
      (fun r => (r.body, r.formatted_body)) = [("final", some "<b>final</b>")]) ∧
    ((process_messages [exRootIdea, exEdit] (some exPriorE)).messages =
      [exOldRec,
       { id := some "A", ts := 5, type := "idea", body := "final", parent_id := none,
         formatted_body := none, keywords := none }] ∧
      newOnly [exRootIdea, exEdit] (some exPriorE) = [exRootIdea]) := by
  refine ⟨build_edit_map_last, editTarget_nested, editTarget_top_level,
    to_minimal_override, ?_, ?_, ?_⟩
  · decide
  · decide
  · decide

/-- Claim C8, witness: the last-wins lemma applied to the concrete replace
event. -/
theorem C8_witness :
    build_edit_map ([] ++ exEdit :: []) "A" = some ("final", "") :=
  C8_edit_resolution.1 [] [] exEdit "A" "final" "" (by decide)
    (fun m' hm' => absurd hm' (List.not_mem_nil m'))

/-- Claim C9: the fixed-point closure loop terminates within
`batch length + 1` passes on every finite batch, cyclic or malformed
relation graphs included — each pass only grows the keep-set (monotone),
additions are event ids of the batch (bounded), extra fuel never changes the
result, and the result is a true fixed point of the pass. -/
theorem C9_termination (msgs : List RawMessage) (s : Finset (Option String)) (k : Nat) :
    s ⊆ keepPass msgs s ∧
    keepLoop msgs (msgs.length + 1 + k) s = keepLoop msgs (msgs.length + 1) s ∧
    keepPass msgs (keepLoop msgs (msgs.length + 1) s) =
      keepLoop msgs (msgs.length + 1) s ∧
    keepLoop msgs (msgs.length + 1) s ⊆ s ∪ eidsOf msgs := by
  obtain ⟨h1, h2, h3⟩ := keepIds_invariants msgs s
  refine ⟨keepPass_subset msgs s, keepLoop_stable msgs s k,
    keepLoop_fixed msgs (msgs.length + 1) s _ h1 h2 h3, ?_⟩
  intro e he
  rcases keepLoop_bound msgs (msgs.length + 1) s e he with h | ⟨m, hm, h⟩
  · exact Finset.mem_union_left _ h
  · apply Finset.mem_union_right
    simp only [eidsOf, List.mem_toFinset, List.mem_map]
    exact ⟨m, hm, h.symm⟩

/-- Claim C10: the keyword list of the example body is exactly
`["ai", "governance", "research", "deep dive"]` in that order; every
extracted list is deduplicated (no duplicates survive) and capped at 15
entries; and the emitted record's `keywords` field holds the extracted list
of its (override-resolved) body exactly when that list is non-empty, being
omitted otherwise. -/
theorem C10_keywords :
    extract_keywords "keywords: ai, governance #research **deep dive**" =
      ["ai", "governance", "research", "deep dive"] ∧
    (∀ body : String, (extract_keywords body).length ≤ 15) ∧
    (∀ body : String, (extract_keywords body).Nodup) ∧
    (∀ (msg : RawMessage) (em : String → Option (String × String)),
      (to_minimal_message msg false em).keywords =
        if extract_keywords ((to_minimal_message msg false em).body) ≠ [] then
          some (extract_keywords ((to_minimal_message msg false em).body))
        else none) := by
  refine ⟨by decide, extract_keywords_len, extract_keywords_nodup, ?_⟩
  intro msg em
  have h := to_minimal_message_keywords msg false em
  simpa using h
